import Mathlib

/-!
Verification development for a Rust JSON parser / pretty-printer
(src/ast.rs, src/parser.rs, src/printer.rs).

The Rust code is shallowly embedded: the parser state (a forward-only
Peekable<Chars> cursor) becomes an explicit List Char threaded through
every parsing function, fallible code returns an explicit result type,
and the mutually recursive grammar rules take a fuel parameter so that
every definition is a computable structural recursion (a separate
theorem shows the fuel chosen by the top-level entry point is never
exhausted, which is the termination argument of the claim list).

Machine floats: the Rust tree stores f64 and delegates literal-to-float
conversion and float formatting to the Rust standard library, which is
not part of this repository.  The embedding records the exact decimal
value of a numeric literal (sign, decimal mantissa and power-of-ten
scale) and formats it exactly; this agrees with the Rust pipeline on
every numeric value appearing in the theorems below (small integers,
which are exactly representable as doubles and are printed by Rust
without rounding).  Claims whose truth depends on IEEE-754 rounding or
overflow behaviour are not settled against this model.
-/

/-- Exact-value model of the f64 payload of Json::Number: the value is
(if neg then -1 else 1) * mant * 10 ^ scale.  The sign flag is kept
separately so that a negative zero literal stays distinguishable, as it
is for Rust doubles. -/
structure F64 where
  neg : Bool
  mant : Nat
  scale : Int
deriving DecidableEq, Repr

/-- Json value tree, from the Rust enum Json in src/ast.rs.  The Rust
BTreeMap<String, Json> of the Object variant is embedded as an
association list that is kept strictly sorted by key (theorems below
establish the parser maintains this invariant), because a BTreeMap
iterates its entries in ascending key order. -/
inductive Json where
  | null : Json
  | boolean : Bool → Json
  | string : String → Json
  | number : F64 → Json
  | array : List Json → Json
  | object : List (String × Json) → Json

/-- Result of a Rust function that can fail: ok carries the value and
the remaining input of the cursor, err a JsonParseError message, and
panicked models a Rust panic (an unwrap of None).  nofuel is the
embedding artifact for fuel exhaustion; the termination theorem shows
the top-level entry point never produces it. -/
inductive PRes (α : Type) where
  | ok : α → List Char → PRes α
  | err : String → PRes α
  | panicked : String → PRes α
  | nofuel : PRes α
deriving Repr

/-- True exactly on the err constructor. -/
def PRes.isErr {α : Type} : PRes α → Bool
  | .err _ => true
  | _ => false

/-- True exactly on the nofuel constructor. -/
def PRes.isNofuel {α : Type} : PRes α → Bool
  | .nofuel => true
  | _ => false

/-- Digit characters, from the Rust string literal "0123456789". -/
def digit_chars : List Char := "0123456789".toList

/-- Nonzero digit characters, from the Rust string literal "123456789". -/
def nonzero_digit_chars : List Char := "123456789".toList

/-- Whitespace characters skipped by the parser, from the Rust string
literal of skip_whitespace: space, line feed, carriage return, tab. -/
def whitespace_chars : List Char := " \n\r\t".toList

/-- Numeric value of a list of decimal digit characters. -/
def nat_of_digits (cs : List Char) : Nat :=
  cs.foldl (fun acc c => acc * 10 + (c.toNat - 48)) 0

/-- Exponent suffix of a numeric literal for parse_f64: empty input
means exponent 0; otherwise the whole remaining input must be e or E,
an optional sign and at least one digit. -/
def parse_f64_exp (rest : List Char) : Option Int :=
  match rest with
  | [] => some 0
  | e :: t =>
    if e = 'e' ∨ e = 'E' then
      let (sgn, u) : Int × List Char :=
        match t with
        | '-' :: u => (-1, u)
        | '+' :: u => (1, u)
        | _ => (1, t)
      let ds := u.takeWhile (fun c => digit_chars.contains c)
      let u2 := u.dropWhile (fun c => digit_chars.contains c)
      if ds.isEmpty then none
      else if u2.isEmpty then some (sgn * (nat_of_digits ds : Int))
      else none
    else none

/-- Exact-value model of Rust str::parse::<f64> restricted to the
decimal literals produced by the number grammar: sign, integer digits,
optional fraction, optional exponent, evaluated exactly.  Returns none
on anything outside that shape (the Rust parser would reject those
too); IEEE-754 rounding and overflow are deliberately not modelled. -/
def parse_f64 (s : List Char) : Option F64 :=
  let (neg, s1) : Bool × List Char :=
    match s with
    | '-' :: t => (true, t)
    | _ => (false, s)
  let intPart := s1.takeWhile (fun c => digit_chars.contains c)
  let rest1 := s1.dropWhile (fun c => digit_chars.contains c)
  if intPart.isEmpty then none
  else
    let (fracPart, rest2) : List Char × List Char :=
      match rest1 with
      | '.' :: t =>
        (t.takeWhile (fun c => digit_chars.contains c),
         t.dropWhile (fun c => digit_chars.contains c))
      | _ => ([], rest1)
    let fracBad : Bool :=
      match rest1 with
      | '.' :: _ => fracPart.isEmpty
      | _ => false
    if fracBad then none
    else
      match parse_f64_exp rest2 with
      | none => none
      | some e => some ⟨neg, nat_of_digits (intPart ++ fracPart), e - (fracPart.length : Int)⟩

/-- Decimal digits of a natural number, for display. -/
def trim_trailing_zeros (cs : List Char) : List Char :=
  (cs.reverse.dropWhile (fun c => c = '0')).reverse

/-- Left-pad a digit list with zeros to the given length. -/
def pad_to_length (k : Nat) (cs : List Char) : List Char :=
  List.replicate (k - cs.length) '0' ++ cs

/-- Exact-value model of the Rust Display formatting of an f64 (the
write_fmt of the number arm of display_json): integral values print
without a decimal point or trailing .0, fractional values print their
exact decimal digits with trailing zeros trimmed.  This agrees with
Rust on every number appearing in the theorems below (small integers);
shortest-round-trip rounding of inexact doubles is not modelled. -/
def display_f64 (x : F64) : String :=
  let sign := if x.neg then "-" else ""
  if 0 ≤ x.scale then
    sign ++ toString (x.mant * 10 ^ x.scale.toNat)
  else
    let k := (-x.scale).toNat
    let ip := x.mant / 10 ^ k
    let fp := x.mant % 10 ^ k
    let frac := trim_trailing_zeros (pad_to_length k (toString fp).toList)
    if frac.isEmpty then sign ++ toString ip
    else sign ++ toString ip ++ "." ++ String.mk frac

/-- Monadic propagation of errors, modelling the Rust question-mark
operator on Result: the continuation receives the value and the
remaining input. -/
def PRes.bind {α β : Type} (r : PRes α) (f : α → List Char → PRes β) : PRes β :=
  match r with
  | .ok a rest => f a rest
  | .err m => .err m
  | .panicked m => .panicked m
  | .nofuel => .nofuel

/-- skip_whitespace from src/parser.rs: drop leading space, line feed,
carriage return and tab characters. -/
def skip_whitespace : List Char → List Char
  | c :: cs => if whitespace_chars.contains c then skip_whitespace cs else c :: cs
  | [] => []

/-- consume from src/parser.rs: match the literal text character by
character against the input, reporting the expected versus found
character on a mismatch and a hard error on end of input. -/
def consume (rest : List Char) (literal : List Char) (json_value : Json) : PRes Json :=
  match literal, rest with
  | [], _ => .ok json_value rest
  | _ :: _, [] => .err "Unexpected end of input"
  | e :: es, a :: more =>
    if a = e then consume more es json_value
    else .err ("Expected '" ++ String.mk [e] ++ "', but found '" ++ String.mk [a] ++ "'")

/-- Models one call of the advance_if closure of parse_number: consume
the next character when it satisfies the predicate, pushing it onto the
accumulated literal; returns whether a character was consumed together
with the new accumulator and the new cursor. -/
def advance_if (p : Char → Bool) (acc : List Char) : List Char → Bool × List Char × List Char
  | c :: cs => if p c then (true, acc ++ [c], cs) else (false, acc, c :: cs)
  | [] => (false, acc, [])

/-- Models a while advance_if loop of parse_number: consume characters
while the predicate holds. -/
def advance_while (p : Char → Bool) (acc : List Char) : List Char → List Char × List Char
  | c :: cs => if p c then advance_while p (acc ++ [c]) cs else (acc, c :: cs)
  | [] => (acc, [])

/-- Fractional part step of parse_number: an optional point which, when
present, requires at least one following digit. -/
def parse_number_frac (acc : List Char) (rest : List Char) : PRes (List Char) :=
  let s := advance_if (fun c => c = '.') acc rest
  if s.1 then
    let d := advance_if (fun c => digit_chars.contains c) s.2.1 s.2.2
    if d.1 then
      let w := advance_while (fun c => digit_chars.contains c) d.2.1 d.2.2
      .ok w.1 w.2
    else .err "Missing digits after point in number"
  else .ok s.2.1 s.2.2

/-- Exponent part step of parse_number: an optional e or E marker with
optional sign which, when present, requires at least one digit. -/
def parse_number_exp (acc : List Char) (rest : List Char) : PRes (List Char) :=
  let s := advance_if (fun c => c = 'e' ∨ c = 'E') acc rest
  if s.1 then
    let sg := advance_if (fun c => c = '-' ∨ c = '+') s.2.1 s.2.2
    let d := advance_if (fun c => digit_chars.contains c) sg.2.1 sg.2.2
    if d.1 then
      let w := advance_while (fun c => digit_chars.contains c) d.2.1 d.2.2
      .ok w.1 w.2
    else .err "Missing digits after exponent in number"
  else .ok s.2.1 s.2.2

/-- Final conversion step of parse_number: hand the accumulated literal
to the float parser; a literal it rejects is reported as an error. -/
def parse_number_finish (acc : List Char) (rest : List Char) : PRes Json :=
  match parse_f64 acc with
  | some v => .ok (Json.number v) rest
  | none => .err ("Expected number, found: " ++ String.mk acc)

/-- parse_number from src/parser.rs: optional minus; a single zero or a
nonzero digit followed by digits (otherwise the Rust code formats an
error message by unwrapping the peeked character, which panics when the
input is exhausted, e.g. after a lone minus); then fraction, exponent
and float conversion. -/
def parse_number (rest : List Char) : PRes Json :=
  let sNeg := advance_if (fun c => c = '-') [] rest
  let acc0 := sNeg.2.1
  let rest0 := sNeg.2.2
  let sZero := advance_if (fun c => c = '0') acc0 rest0
  let intRes : PRes (List Char) :=
    if sZero.1 then .ok sZero.2.1 sZero.2.2
    else
      let sNz := advance_if (fun c => nonzero_digit_chars.contains c) acc0 rest0
      if sNz.1 then
        let w := advance_while (fun c => digit_chars.contains c) sNz.2.1 sNz.2.2
        .ok w.1 w.2
      else
        match rest0 with
        | c :: _ => .err ("Unexpected character in number: " ++ String.mk [c])
        | [] => .panicked "called Option::unwrap() on a None value"
  intRes.bind fun acc1 rest1 =>
    (parse_number_frac acc1 rest1).bind fun acc2 rest2 =>
      (parse_number_exp acc2 rest2).bind fun acc3 rest3 =>
        parse_number_finish acc3 rest3

/-- Test for is_ascii_hexdigit of Rust char: 0-9, a-f, A-F. -/
def is_ascii_hexdigit (c : Char) : Bool :=
  decide ((48 ≤ c.toNat ∧ c.toNat ≤ 57) ∨ (97 ≤ c.toNat ∧ c.toNat ≤ 102) ∨
    (65 ≤ c.toNat ∧ c.toNat ≤ 70))

/-- Numeric value of one hex digit character. -/
def hex_digit_value (c : Char) : Nat :=
  if 48 ≤ c.toNat ∧ c.toNat ≤ 57 then c.toNat - 48
  else if 97 ≤ c.toNat then c.toNat - 87
  else c.toNat - 55

/-- Collect exactly n ASCII hex digit characters from the input. -/
def take_hex_digits (n : Nat) (acc : List Char) (rest : List Char) : PRes (List Char) :=
  match n with
  | 0 => .ok acc rest
  | m + 1 =>
    match rest with
    | [] => .err "Unexpected end of input"
    | c :: cs =>
      if is_ascii_hexdigit c then take_hex_digits m (acc ++ [c]) cs
      else .err "Invalid hex digit in unicode escape sequence"

/-- Base-16 value of a list of hex digit characters. -/
def hex_value_of_digits (cs : List Char) : Nat :=
  cs.foldl (fun acc c => acc * 16 + hex_digit_value c) 0

/-- parse_utf16_hex_escaped_codepoint from src/parser.rs: exactly four
hex digits forming one UTF-16 code unit.  The final u16::from_str_radix
of the Rust code cannot fail on four hex digits, so the conversion is
modelled directly. -/
def parse_utf16_hex_escaped_codepoint (rest : List Char) : PRes Nat :=
  (take_hex_digits 4 [] rest).bind fun ds rest1 => .ok (hex_value_of_digits ds) rest1

/-- parse_string_escape_as_codepoint from src/parser.rs: the character
after a backslash selects a short escape or a hex escape; anything else
is an invalid escape sequence. -/
def parse_string_escape_as_codepoint (rest : List Char) : PRes Nat :=
  match rest with
  | [] => .err "Unexpected end of input"
  | c :: cs =>
    if c = '"' then .ok 34 cs
    else if c = '\\' then .ok 92 cs
    else if c = '/' then .ok 47 cs
    else if c = 'b' then .ok 8 cs
    else if c = 'f' then .ok 12 cs
    else if c = 'n' then .ok 10 cs
    else if c = 'r' then .ok 13 cs
    else if c = 't' then .ok 9 cs
    else if c = 'u' then parse_utf16_hex_escaped_codepoint cs
    else .err "Invalid escape sequence in string"

/-- Model of char::decode_utf16 together with the decoding for loop of
parse_string_escape_char: a unit outside the surrogate range maps to
its own code point, a high surrogate followed by a low surrogate
combines into one scalar value, and any lone surrogate makes the whole
decoding fail (the Rust loop aborts on the first error). -/
def decode_utf16 : List Nat → Option (List Char)
  | [] => some []
  | u :: us =>
    if u < 0xD800 ∨ 0xE000 ≤ u then
      match decode_utf16 us with
      | some cs => some (Char.ofNat u :: cs)
      | none => none
    else if u ≤ 0xDBFF then
      match us with
      | l :: us2 =>
        if 0xDC00 ≤ l ∧ l ≤ 0xDFFF then
          match decode_utf16 us2 with
          | some cs => some (Char.ofNat (0x10000 + (u - 0xD800) * 0x400 + (l - 0xDC00)) :: cs)
          | none => none
        else none
      | [] => none
    else none

/-- Loop of parse_string_escape_char from src/parser.rs: parse one
escape as a UTF-16 code unit, and continue while the character after it
is another backslash (consuming that backslash); the peek after an
escape fails on end of input exactly as peek_or_fail does.  Fuel is an
embedding artifact; every iteration consumes at least one character. -/
def escape_codepoints_loop : Nat → List Nat → List Char → PRes (List Nat)
  | 0, _, _ => .nofuel
  | fuel + 1, codepoints, rest =>
    (parse_string_escape_as_codepoint rest).bind fun u rest1 =>
      let codepoints2 := codepoints ++ [u]
      match rest1 with
      | [] => .err "Unexpected end of input"
      | c :: cs =>
        if c = '\\' then escape_codepoints_loop fuel codepoints2 cs
        else .ok codepoints2 (c :: cs)

/-- parse_string_escape_char from src/parser.rs: batch up consecutive
escape sequences as UTF-16 code units, then decode them, reporting an
unpaired surrogate as an error. -/
def parse_string_escape_char (rest : List Char) : PRes String :=
  (escape_codepoints_loop (rest.length + 1) [] rest).bind fun codepoints rest1 =>
    match decode_utf16 codepoints with
    | some cs => .ok (String.mk cs) rest1
    | none => .err "Unpaired UTF-16 surrogate in string"

/-- Character loop of parse_string from src/parser.rs: read until the
closing quote, handing backslashes to the escape parser; end of input
before the closing quote is an error.  Fuel is an embedding artifact;
every iteration consumes at least one character. -/
def parse_string_loop : Nat → String → List Char → PRes String
  | 0, _, _ => .nofuel
  | fuel + 1, parsed, rest =>
    match rest with
    | [] => .err "Unexpected end of input"
    | c :: cs =>
      if c = '"' then .ok parsed cs
      else if c = '\\' then
        (parse_string_escape_char cs).bind fun s rest1 =>
          parse_string_loop fuel (parsed ++ s) rest1
      else parse_string_loop fuel (parsed.push c) cs

/-- parse_string from src/parser.rs: an opening quote followed by the
character loop. -/
def parse_string (rest : List Char) : PRes String :=
  match rest with
  | [] => .err "Unexpected end of input"
  | c :: cs =>
    if c = '"' then parse_string_loop (cs.length + 1) "" cs
    else .err ("Expected a string, found '" ++ String.mk [c] ++ "'")

/-- parse_string_value from src/parser.rs: wrap the parsed string as a
Json value. -/
def parse_string_value (rest : List Char) : PRes Json :=
  (parse_string rest).bind fun s rest1 => .ok (Json.string s) rest1

/-- Lexicographic comparison of character lists by code point.  Rust
String ordering (the Ord used by BTreeMap<String, Json>) is byte-wise
lexicographic over UTF-8, which coincides with code-point lexicographic
order. -/
def chars_lt : List Char → List Char → Bool
  | [], [] => false
  | [], _ :: _ => true
  | _ :: _, [] => false
  | a :: as1, b :: bs1 =>
    if a.toNat < b.toNat then true
    else if b.toNat < a.toNat then false
    else chars_lt as1 bs1

/-- Rust String ordering on the embedded strings. -/
def str_lt (a b : String) : Bool := chars_lt a.toList b.toList

/-- Model of BTreeMap::insert on the sorted association list: place the
key at its ordered position, overwriting the stored value when the key
is already present. -/
def btree_insert (props : List (String × Json)) (key : String) (value : Json) :
    List (String × Json) :=
  match props with
  | [] => [(key, value)]
  | (k, v) :: rest =>
    if str_lt key k then (key, value) :: (k, v) :: rest
    else if key = k then (key, value) :: rest
    else (k, v) :: btree_insert rest key value

/-- Model of BTreeMap::get on the association list. -/
def btree_lookup (props : List (String × Json)) (key : String) : Option Json :=
  match props with
  | [] => none
  | (k, v) :: rest => if key = k then some v else btree_lookup rest key

/-- Trailing whitespace skip of parse_value: after a successful value
the cursor is advanced past whitespace; errors pass through. -/
def skip_trailing (value : PRes Json) : PRes Json :=
  match value with
  | .ok v rest1 => .ok v (skip_whitespace rest1)
  | other => other

mutual

/-- parse_value from src/parser.rs: skip whitespace, dispatch on the
peeked character, skip whitespace after a successful value.  The fuel
parameter is an embedding artifact making the mutual grammar recursion
structural; the termination theorem shows the top-level entry point
never exhausts it. -/
def parse_value : Nat → List Char → PRes Json
  | 0, _ => .nofuel
  | fuel + 1, rest0 =>
    let rest := skip_whitespace rest0
    let value : PRes Json :=
      match rest with
      | [] => .err "Unexpected end of input"
      | c :: _ =>
        if c = 'n' then consume rest "null".toList Json.null
        else if c = 't' then consume rest "true".toList (Json.boolean true)
        else if c = 'f' then consume rest "false".toList (Json.boolean false)
        else if c = '-' ∨ (48 ≤ c.toNat ∧ c.toNat ≤ 57) then parse_number rest
        else if c = '"' then parse_string_value rest
        else if c = '[' then parse_array fuel rest
        else if c = '\x7b' then parse_object fuel rest
        else .err ("Unexpected character: " ++ String.mk [c])
    skip_trailing value

/-- parse_array from src/parser.rs: consume the opening bracket, skip
whitespace, and either close immediately or run the element loop. -/
def parse_array : Nat → List Char → PRes Json
  | 0, _ => .nofuel
  | fuel + 1, rest =>
    match rest with
    | [] => .err "Unexpected end of input"
    | c :: cs =>
      if c = '[' then
        let cs1 := skip_whitespace cs
        match cs1 with
        | [] => .err "Unexpected end of input"
        | d :: ds =>
          if d = ']' then .ok (Json.array []) ds
          else
            (parse_array_items fuel [] (d :: ds)).bind fun items rest1 =>
              .ok (Json.array items) rest1
      else .err "Expected array"

/-- Element loop of parse_array: parse a value, push it, then continue
on a comma or stop on a closing bracket. -/
def parse_array_items : Nat → List Json → List Char → PRes (List Json)
  | 0, _, _ => .nofuel
  | fuel + 1, items, rest =>
    (parse_value fuel rest).bind fun item rest1 =>
      let items2 := items ++ [item]
      match rest1 with
      | [] => .err "Unexpected end of input"
      | d :: ds =>
        if d = ']' then .ok items2 ds
        else if d = ',' then parse_array_items fuel items2 ds
        else .err ("Expected ',' or ']', found '" ++ String.mk [d] ++ "'")

/-- parse_object from src/parser.rs: consume the opening brace, skip
whitespace, and either close immediately or run the property loop (the
error message for a missing brace says Expected array in the Rust
source, kept verbatim). -/
def parse_object : Nat → List Char → PRes Json
  | 0, _ => .nofuel
  | fuel + 1, rest =>
    match rest with
    | [] => .err "Unexpected end of input"
    | c :: cs =>
      if c = '\x7b' then
        let cs1 := skip_whitespace cs
        match cs1 with
        | [] => .err "Unexpected end of input"
        | d :: ds =>
          if d = '\x7d' then .ok (Json.object []) ds
          else
            (parse_object_items fuel [] (d :: ds)).bind fun props rest1 =>
              .ok (Json.object props) rest1
      else .err "Expected array"

/-- Property loop of parse_object: parse a key with the string rule,
require a colon, parse the value, insert it into the sorted map, then
continue on a comma (skipping whitespace) or stop on a closing
brace. -/
def parse_object_items : Nat → List (String × Json) → List Char → PRes (List (String × Json))
  | 0, _, _ => .nofuel
  | fuel + 1, props, rest =>
    (parse_string rest).bind fun key rest1 =>
      let rest2 := skip_whitespace rest1
      match rest2 with
      | [] => .err "Unexpected end of input"
      | c :: cs =>
        if c = ':' then
          (parse_value fuel cs).bind fun value rest3 =>
            let props2 := btree_insert props key value
            match rest3 with
            | [] => .err "Unexpected end of input"
            | d :: ds =>
              if d = '\x7d' then .ok props2 ds
              else if d = ',' then parse_object_items fuel props2 (skip_whitespace ds)
              else .err ("Expected ',' or '\x7d', found '" ++ String.mk [d] ++ "'")
        else .err "Missing colon after object key"

end

/-- parse from src/parser.rs on a character list: parse one value and
fail if any character remains (the Rust error message counts the
remaining characters with Iterator::count, which includes the peeked
one).  The fuel 3 * n + 3 is an embedding artifact; the termination
theorem proves it is never exhausted. -/
def parse_chars (cs : List Char) : PRes Json :=
  (parse_value (3 * cs.length + 3) cs).bind fun parsed rest =>
    match rest with
    | c :: _ =>
      .err ("Unexpected character: " ++ String.mk [c] ++ ", " ++
        toString rest.length ++ " chars remaining")
    | [] => .ok parsed []

/-- parse from src/parser.rs, entry point on a string. -/
def parse (s : String) : PRes Json := parse_chars s.toList

/-- Indentation: a run of spaces, modelling the write_char loops of the
printer. -/
def spaces (n : Nat) : String := String.mk (List.replicate n ' ')

/-- Uppercase hex digit table, as used by the 04X format of Rust. -/
def hex_digit_upper (n : Nat) : Char := "0123456789ABCDEF".toList.getD n '0'

/-- Four-digit uppercase hex rendering of a UTF-16 code unit, the 04X
format specifier of the control-character escape. -/
def hex4_upper (n : Nat) : String :=
  String.mk [hex_digit_upper (n / 4096 % 16), hex_digit_upper (n / 256 % 16),
    hex_digit_upper (n / 16 % 16), hex_digit_upper (n % 16)]

/-- Escape of one character inside a printed JSON string, from the match
of display_json_string in src/printer.rs.  In the control-character arm
the Rust code UTF-16-encodes the character and prints its first code
unit with backslash-u and 04X; for code points below 0x20 that code
unit equals the code point itself.  Every other character passes
through unchanged (in particular the forward slash). -/
def escape_json_char (c : Char) : String :=
  if c = '\\' then "\\\\"
  else if c = '"' then "\\\""
  else if c = '\n' then "\\n"
  else if c = '\r' then "\\r"
  else if c = '\t' then "\\t"
  else if c = Char.ofNat 12 then "\\f"
  else if c = Char.ofNat 8 then "\\b"
  else if c.toNat ≤ 0x1F then "\\u" ++ hex4_upper c.toNat
  else String.mk [c]

/-- display_json_string from src/printer.rs: a double quote, every
character escaped as required, and a closing double quote. -/
def display_json_string (s : String) : String :=
  "\"" ++ String.join (s.toList.map escape_json_char) ++ "\""

mutual

/-- display_json from src/printer.rs (value, indent width, nesting
level).  The bodies of display_json_array and display_json_object are
inlined into the array and object arms (with their element loops as
display_json_items and display_json_props) so that the mutual recursion
stays structural and computable by the kernel; the emitted text is
identical: an empty array or object prints on one line, a nonempty one
prints one element per line at (level + 1) * indent spaces, with a
comma after every element but the last, and the closing bracket at
level * indent spaces. -/
def display_json : Json → Nat → Nat → String
  | Json.null, _, _ => "null"
  | Json.boolean true, _, _ => "true"
  | Json.boolean false, _, _ => "false"
  | Json.string s, _, _ => display_json_string s
  | Json.number x, _, _ => display_f64 x
  | Json.array items, indent, level =>
    match items with
    | [] => "[]"
    | _ :: _ =>
      "[\n" ++ display_json_items items indent level ++ spaces (level * indent) ++ "]"
  | Json.object props, indent, level =>
    match props with
    | [] => "\x7b\x7d"
    | _ :: _ =>
      "\x7b\n" ++ display_json_props props indent level ++ spaces (level * indent) ++ "\x7d"

/-- Element loop of display_json_array: each element on its own line at
child level indentation, a comma after every element but the last. -/
def display_json_items : List Json → Nat → Nat → String
  | [], _, _ => ""
  | [item], indent, level =>
    spaces ((level + 1) * indent) ++ display_json item indent (level + 1) ++ "\n"
  | item :: more, indent, level =>
    spaces ((level + 1) * indent) ++ display_json item indent (level + 1) ++ ",\n" ++
      display_json_items more indent level

/-- Property loop of display_json_object: each key printed with the
string escaper, colon-space, then the value, a comma after every
property but the last. -/
def display_json_props : List (String × Json) → Nat → Nat → String
  | [], _, _ => ""
  | [(key, value)], indent, level =>
    spaces ((level + 1) * indent) ++ display_json_string key ++ ": " ++
      display_json value indent (level + 1) ++ "\n"
  | (key, value) :: more, indent, level =>
    spaces ((level + 1) * indent) ++ display_json_string key ++ ": " ++
      display_json value indent (level + 1) ++ ",\n" ++
      display_json_props more indent level

end

/-- json_to_string from src/printer.rs: render a value at the given
indent width, starting at nesting level 0 (writing into a String never
fails, so the expect of the Rust code cannot panic). -/
def json_to_string (value : Json) (indent : Nat) : String :=
  display_json value indent 0

/-- Strict ascending key order of an association list: the storage
invariant of the BTreeMap embedding (a BTreeMap iterates its entries in
strictly ascending key order). -/
def keys_sorted : List (String × Json) → Bool
  | (k1, _) :: (k2, v2) :: rest => str_lt k1 k2 && keys_sorted ((k2, v2) :: rest)
  | _ => true

mutual

/-- Well-formedness of a parsed tree: every object node, at any depth,
stores its properties in strictly ascending key order. -/
def json_wf : Json → Bool
  | Json.null => true
  | Json.boolean _ => true
  | Json.string _ => true
  | Json.number _ => true
  | Json.array items => json_list_wf items
  | Json.object props => keys_sorted props && json_props_wf props

/-- Well-formedness of every element of an array. -/
def json_list_wf : List Json → Bool
  | [] => true
  | j :: js => json_wf j && json_list_wf js

/-- Well-formedness of every stored property value of an object. -/
def json_props_wf : List (String × Json) → Bool
  | [] => true
  | (_, v) :: ps => json_wf v && json_props_wf ps

end

theorem PRes.bind_eq_ok {α β : Type} {r : PRes α} {f : α → List Char → PRes β} {b : β}
    {rest : List Char} (h : r.bind f = .ok b rest) :
    ∃ a rest1, r = .ok a rest1 ∧ f a rest1 = .ok b rest := by
  cases r with
  | ok a rest1 => exact ⟨a, rest1, rfl, h⟩
  | err m => simp [PRes.bind] at h
  | panicked m => simp [PRes.bind] at h
  | nofuel => simp [PRes.bind] at h

theorem PRes.bind_isNofuel {α β : Type} {r : PRes α} {f : α → List Char → PRes β}
    (h1 : r.isNofuel = false)
    (h2 : ∀ a rest, r = .ok a rest → (f a rest).isNofuel = false) :
    (r.bind f).isNofuel = false := by
  cases r with
  | ok a rest => exact h2 a rest rfl
  | err m => rfl
  | panicked m => rfl
  | nofuel => simp [PRes.isNofuel] at h1

theorem skip_whitespace_length (cs : List Char) : (skip_whitespace cs).length ≤ cs.length := by
  induction cs with
  | nil => simp [skip_whitespace]
  | cons c cs ih =>
    simp only [skip_whitespace]
    split
    · exact Nat.le_trans ih (Nat.le_succ _)
    · simp

theorem consume_ok {literal rest : List Char} {v w : Json} {rest2 : List Char}
    (h : consume rest literal v = .ok w rest2) :
    w = v ∧ rest2.length + literal.length = rest.length := by
  induction literal generalizing rest with
  | nil =>
    simp only [consume] at h
    obtain ⟨h1, h2⟩ := PRes.ok.inj h
    subst h1; subst h2; simp
  | cons e es ih =>
    cases rest with
    | nil => simp [consume] at h
    | cons a more =>
      simp only [consume] at h
      split at h
      · obtain ⟨hw, hlen⟩ := ih h
        exact ⟨hw, by simp; omega⟩
      · simp at h

theorem consume_isNofuel (literal rest : List Char) (v : Json) :
    (consume rest literal v).isNofuel = false := by
  induction literal generalizing rest with
  | nil => cases rest <;> rfl
  | cons e es ih =>
    cases rest with
    | nil => rfl
    | cons a more =>
      simp only [consume]
      split
      · exact ih more
      · rfl

theorem advance_if_true {p : Char → Bool} {acc cs : List Char}
    (h : (advance_if p acc cs).1 = true) :
    (advance_if p acc cs).2.2.length + 1 = cs.length := by
  cases cs with
  | nil => simp [advance_if] at h
  | cons c cs =>
    simp only [advance_if] at h ⊢
    split at h <;> simp_all

theorem advance_if_length (p : Char → Bool) (acc cs : List Char) :
    (advance_if p acc cs).2.2.length ≤ cs.length := by
  cases cs with
  | nil => simp [advance_if]
  | cons c cs =>
    simp only [advance_if]
    split <;> simp

theorem advance_while_length (p : Char → Bool) (acc cs : List Char) :
    (advance_while p acc cs).2.length ≤ cs.length := by
  induction cs generalizing acc with
  | nil => simp [advance_while]
  | cons c cs ih =>
    simp only [advance_while]
    split
    · exact Nat.le_trans (ih _) (Nat.le_succ _)
    · simp

theorem parse_number_frac_ok {acc rest acc2 rest2 : List Char}
    (h : parse_number_frac acc rest = .ok acc2 rest2) : rest2.length ≤ rest.length := by
  simp only [parse_number_frac] at h
  split at h
  · split at h
    · obtain ⟨h1, h2⟩ := PRes.ok.inj h
      subst h2
      calc (advance_while (fun c => digit_chars.contains c) _ _).2.length
          ≤ _ := advance_while_length _ _ _
        _ ≤ _ := advance_if_length _ _ _
        _ ≤ _ := advance_if_length _ _ _
    · simp at h
  · obtain ⟨h1, h2⟩ := PRes.ok.inj h
    subst h2
    exact advance_if_length _ _ _

theorem parse_number_frac_isNofuel (acc rest : List Char) :
    (parse_number_frac acc rest).isNofuel = false := by
  simp only [parse_number_frac]
  split
  · split <;> rfl
  · rfl

theorem parse_number_exp_ok {acc rest acc2 rest2 : List Char}
    (h : parse_number_exp acc rest = .ok acc2 rest2) : rest2.length ≤ rest.length := by
  simp only [parse_number_exp] at h
  split at h
  · split at h
    · obtain ⟨h1, h2⟩ := PRes.ok.inj h
      subst h2
      calc (advance_while (fun c => digit_chars.contains c) _ _).2.length
          ≤ _ := advance_while_length _ _ _
        _ ≤ _ := advance_if_length _ _ _
        _ ≤ _ := advance_if_length _ _ _
        _ ≤ _ := advance_if_length _ _ _
    · simp at h
  · obtain ⟨h1, h2⟩ := PRes.ok.inj h
    subst h2
    exact advance_if_length _ _ _

theorem parse_number_exp_isNofuel (acc rest : List Char) :
    (parse_number_exp acc rest).isNofuel = false := by
  simp only [parse_number_exp]
  split
  · split <;> rfl
  · rfl

theorem parse_number_finish_ok {acc rest : List Char} {v : Json} {rest2 : List Char}
    (h : parse_number_finish acc rest = .ok v rest2) :
    rest2 = rest ∧ ∃ x, v = Json.number x := by
  simp only [parse_number_finish] at h
  split at h
  · obtain ⟨h1, h2⟩ := PRes.ok.inj h
    exact ⟨h2.symm, _, h1.symm⟩
  · simp at h

theorem parse_number_finish_isNofuel (acc rest : List Char) :
    (parse_number_finish acc rest).isNofuel = false := by
  simp only [parse_number_finish]
  split <;> rfl

theorem parse_number_ok {rest : List Char} {v : Json} {rest2 : List Char}
    (h : parse_number rest = .ok v rest2) :
    rest2.length < rest.length ∧ ∃ x, v = Json.number x := by
  simp only [parse_number] at h
  obtain ⟨acc1, rest1, h1, h2⟩ := PRes.bind_eq_ok h
  obtain ⟨acc2, rest2', h3, h4⟩ := PRes.bind_eq_ok h2
  obtain ⟨acc3, rest3, h5, h6⟩ := PRes.bind_eq_ok h4
  obtain ⟨hr, hx⟩ := parse_number_finish_ok h6
  have l4 : rest2.length = rest3.length := by rw [hr]
  have l3 : rest3.length ≤ rest2'.length := parse_number_exp_ok h5
  have l2 : rest2'.length ≤ rest1.length := parse_number_frac_ok h3
  have l1 : rest1.length < rest.length := by
    have hneg : (advance_if (fun c => c = '-') [] rest).2.2.length ≤ rest.length :=
      advance_if_length _ _ _
    split at h1
    · next hz =>
      obtain ⟨ha, hb⟩ := PRes.ok.inj h1
      subst hb
      have := advance_if_true hz
      omega
    · split at h1
      · next hnz =>
        obtain ⟨ha, hb⟩ := PRes.ok.inj h1
        subst hb
        have hw : _ ≤ _ := advance_while_length (fun c => digit_chars.contains c)
          (advance_if (fun c => nonzero_digit_chars.contains c)
            (advance_if (fun c => c = '-') [] rest).2.1
            (advance_if (fun c => c = '-') [] rest).2.2).2.1
          (advance_if (fun c => nonzero_digit_chars.contains c)
            (advance_if (fun c => c = '-') [] rest).2.1
            (advance_if (fun c => c = '-') [] rest).2.2).2.2
        have := advance_if_true hnz
        omega
      · split at h1 <;> simp at h1
  exact ⟨by omega, hx⟩

theorem parse_number_isNofuel (rest : List Char) : (parse_number rest).isNofuel = false := by
  simp only [parse_number]
  apply PRes.bind_isNofuel
  · split
    · rfl
    · split
      · rfl
      · split <;> rfl
  · intro acc1 rest1 _
    apply PRes.bind_isNofuel (parse_number_frac_isNofuel _ _)
    intro acc2 rest2 _
    apply PRes.bind_isNofuel (parse_number_exp_isNofuel _ _)
    intro acc3 rest3 _
    exact parse_number_finish_isNofuel _ _

theorem take_hex_digits_ok {n : Nat} {acc rest ds rest2 : List Char}
    (h : take_hex_digits n acc rest = .ok ds rest2) : rest2.length + n = rest.length := by
  induction n generalizing acc rest with
  | zero =>
    simp only [take_hex_digits] at h
    obtain ⟨h1, h2⟩ := PRes.ok.inj h
    subst h2; simp
  | succ m ih =>
    cases rest with
    | nil => simp [take_hex_digits] at h
    | cons c cs =>
      simp only [take_hex_digits] at h
      split at h
      · have := ih h
        simp only [List.length_cons]
        omega
      · simp at h

theorem take_hex_digits_isNofuel (n : Nat) (acc rest : List Char) :
    (take_hex_digits n acc rest).isNofuel = false := by
  induction n generalizing acc rest with
  | zero => rfl
  | succ m ih =>
    cases rest with
    | nil => rfl
    | cons c cs =>
      simp only [take_hex_digits]
      split
      · exact ih _ _
      · rfl

theorem parse_utf16_hex_escaped_codepoint_ok {rest : List Char} {u : Nat} {rest2 : List Char}
    (h : parse_utf16_hex_escaped_codepoint rest = .ok u rest2) :
    rest2.length + 4 = rest.length := by
  simp only [parse_utf16_hex_escaped_codepoint] at h
  obtain ⟨ds, rest1, h1, h2⟩ := PRes.bind_eq_ok h
  obtain ⟨h3, h4⟩ := PRes.ok.inj h2
  subst h4
  exact take_hex_digits_ok h1

theorem parse_utf16_hex_escaped_codepoint_isNofuel (rest : List Char) :
    (parse_utf16_hex_escaped_codepoint rest).isNofuel = false := by
  simp only [parse_utf16_hex_escaped_codepoint]
  exact PRes.bind_isNofuel (take_hex_digits_isNofuel _ _ _) (fun a r _ => rfl)

theorem parse_string_escape_as_codepoint_ok {rest : List Char} {u : Nat} {rest2 : List Char}
    (h : parse_string_escape_as_codepoint rest = .ok u rest2) :
    rest2.length < rest.length := by
  cases rest with
  | nil => simp [parse_string_escape_as_codepoint] at h
  | cons c cs =>
    simp only [parse_string_escape_as_codepoint] at h
    split_ifs at h <;>
      first
      | (obtain ⟨h1, h2⟩ := PRes.ok.inj h
         subst h2
         simp)
      | (have hx4 := parse_utf16_hex_escaped_codepoint_ok h
         simp only [List.length_cons]
         omega)

theorem parse_string_escape_as_codepoint_isNofuel (rest : List Char) :
    (parse_string_escape_as_codepoint rest).isNofuel = false := by
  cases rest with
  | nil => rfl
  | cons c cs =>
    simp only [parse_string_escape_as_codepoint]
    split_ifs <;>
      first
      | rfl
      | exact parse_utf16_hex_escaped_codepoint_isNofuel _

theorem escape_codepoints_loop_ok (fuel : Nat) :
    ∀ cps rest cps2 rest2, escape_codepoints_loop fuel cps rest = .ok cps2 rest2 →
      rest2.length < rest.length := by
  induction fuel with
  | zero => intro cps rest cps2 rest2 h; simp [escape_codepoints_loop] at h
  | succ f ih =>
    intro cps rest cps2 rest2 h
    simp only [escape_codepoints_loop] at h
    obtain ⟨u, rest1, h1, h2⟩ := PRes.bind_eq_ok h
    have hlen1 := parse_string_escape_as_codepoint_ok h1
    split at h2
    · simp at h2
    · split_ifs at h2
      · have := ih _ _ _ _ h2
        simp only [List.length_cons] at hlen1
        omega
      · obtain ⟨h3, h4⟩ := PRes.ok.inj h2
        subst h4
        exact hlen1

theorem escape_codepoints_loop_isNofuel (fuel : Nat) :
    ∀ cps rest, rest.length < fuel →
      (escape_codepoints_loop fuel cps rest).isNofuel = false := by
  induction fuel with
  | zero => intro cps rest h; omega
  | succ f ih =>
    intro cps rest h
    simp only [escape_codepoints_loop]
    apply PRes.bind_isNofuel (parse_string_escape_as_codepoint_isNofuel _)
    intro u rest1 h1
    have hlen1 := parse_string_escape_as_codepoint_ok h1
    split
    · rfl
    · split_ifs
      · apply ih
        simp only [List.length_cons] at hlen1
        omega
      · rfl

theorem parse_string_escape_char_ok {rest : List Char} {s : String} {rest2 : List Char}
    (h : parse_string_escape_char rest = .ok s rest2) : rest2.length < rest.length := by
  simp only [parse_string_escape_char] at h
  obtain ⟨cps, rest1, h1, h2⟩ := PRes.bind_eq_ok h
  have := escape_codepoints_loop_ok _ _ _ _ _ h1
  split at h2
  · obtain ⟨h3, h4⟩ := PRes.ok.inj h2
    subst h4
    exact this
  · simp at h2

theorem parse_string_escape_char_isNofuel (rest : List Char) :
    (parse_string_escape_char rest).isNofuel = false := by
  simp only [parse_string_escape_char]
  apply PRes.bind_isNofuel (escape_codepoints_loop_isNofuel _ _ _ (by omega))
  intro cps rest1 _
  split <;> rfl

theorem parse_string_loop_ok (fuel : Nat) :
    ∀ parsed rest s rest2, parse_string_loop fuel parsed rest = .ok s rest2 →
      rest2.length < rest.length := by
  induction fuel with
  | zero => intro parsed rest s rest2 h; simp [parse_string_loop] at h
  | succ f ih =>
    intro parsed rest s rest2 h
    cases rest with
    | nil => simp [parse_string_loop] at h
    | cons c cs =>
      simp only [parse_string_loop] at h
      split_ifs at h
      · obtain ⟨h1, h2⟩ := PRes.ok.inj h
        subst h2
        simp
      · obtain ⟨s1, rest1, h1, h2⟩ := PRes.bind_eq_ok h
        have hl1 := parse_string_escape_char_ok h1
        have hl2 := ih _ _ _ _ h2
        simp only [List.length_cons]
        omega
      · have := ih _ _ _ _ h
        simp only [List.length_cons]
        omega

theorem parse_string_loop_isNofuel (fuel : Nat) :
    ∀ parsed rest, rest.length < fuel →
      (parse_string_loop fuel parsed rest).isNofuel = false := by
  induction fuel with
  | zero => intro parsed rest h; omega
  | succ f ih =>
    intro parsed rest h
    cases rest with
    | nil => rfl
    | cons c cs =>
      simp only [parse_string_loop]
      split_ifs
      · rfl
      · apply PRes.bind_isNofuel (parse_string_escape_char_isNofuel _)
        intro s1 rest1 h1
        have := parse_string_escape_char_ok h1
        apply ih
        simp only [List.length_cons] at h ⊢
        omega
      · apply ih
        simp only [List.length_cons] at h
        omega

theorem parse_string_ok {rest : List Char} {s : String} {rest2 : List Char}
    (h : parse_string rest = .ok s rest2) : rest2.length + 2 ≤ rest.length := by
  cases rest with
  | nil => simp [parse_string] at h
  | cons c cs =>
    simp only [parse_string] at h
    split_ifs at h
    · have := parse_string_loop_ok _ _ _ _ _ h
      simp only [List.length_cons]
      omega

theorem parse_string_isNofuel (rest : List Char) : (parse_string rest).isNofuel = false := by
  cases rest with
  | nil => rfl
  | cons c cs =>
    simp only [parse_string]
    split_ifs
    · exact parse_string_loop_isNofuel _ _ _ (by omega)
    · rfl

theorem parse_string_value_ok {rest : List Char} {v : Json} {rest2 : List Char}
    (h : parse_string_value rest = .ok v rest2) :
    rest2.length + 2 ≤ rest.length ∧ ∃ s, v = Json.string s := by
  simp only [parse_string_value] at h
  obtain ⟨s, rest1, h1, h2⟩ := PRes.bind_eq_ok h
  obtain ⟨h3, h4⟩ := PRes.ok.inj h2
  subst h4
  exact ⟨parse_string_ok h1, s, h3.symm⟩

theorem parse_string_value_isNofuel (rest : List Char) :
    (parse_string_value rest).isNofuel = false := by
  simp only [parse_string_value]
  exact PRes.bind_isNofuel (parse_string_isNofuel _) (fun a r _ => rfl)

theorem skip_trailing_ok {r : PRes Json} {v : Json} {rest : List Char}
    (h : skip_trailing r = .ok v rest) :
    ∃ rest1, r = .ok v rest1 ∧ rest = skip_whitespace rest1 := by
  cases r with
  | ok w rest1 =>
    obtain ⟨h1, h2⟩ := PRes.ok.inj h
    exact ⟨rest1, by rw [h1], h2.symm⟩
  | err m => simp [skip_trailing] at h
  | panicked m => simp [skip_trailing] at h
  | nofuel => simp [skip_trailing] at h

theorem skip_trailing_isNofuel {r : PRes Json} (h : r.isNofuel = false) :
    (skip_trailing r).isNofuel = false := by
  cases r <;> first | rfl | exact h

theorem parse_consumed (fuel : Nat) :
    (∀ cs v rest, parse_value fuel cs = .ok v rest → rest.length < cs.length) ∧
    (∀ cs v rest, parse_array fuel cs = .ok v rest → rest.length < cs.length) ∧
    (∀ cs v rest, parse_object fuel cs = .ok v rest → rest.length < cs.length) ∧
    (∀ items cs xs rest, parse_array_items fuel items cs = .ok xs rest →
      rest.length < cs.length) ∧
    (∀ props cs xs rest, parse_object_items fuel props cs = .ok xs rest →
      rest.length < cs.length) := by
  induction fuel with
  | zero =>
    refine ⟨fun cs v rest h => ?_, fun cs v rest h => ?_, fun cs v rest h => ?_,
      fun items cs xs rest h => ?_, fun props cs xs rest h => ?_⟩ <;>
      simp [parse_value, parse_array, parse_object, parse_array_items,
        parse_object_items] at h
  | succ f ih =>
    obtain ⟨ihv, iha, iho, ihai, ihoi⟩ := ih
    refine ⟨?_, ?_, ?_, ?_, ?_⟩
    · intro cs v rest h
      simp only [parse_value] at h
      obtain ⟨rest1, h1, h2⟩ := skip_trailing_ok h
      have hsk : (skip_whitespace cs).length ≤ cs.length := skip_whitespace_length cs
      have hsk1 : (skip_whitespace rest1).length ≤ rest1.length := skip_whitespace_length rest1
      subst h2
      split at h1
      · simp at h1
      · split_ifs at h1 with hn ht hf hnum hq harr hobj
        · obtain ⟨hv, hlen⟩ := consume_ok h1
          have h4 : ("null".toList).length = 4 := rfl
          omega
        · obtain ⟨hv, hlen⟩ := consume_ok h1
          have h4 : ("true".toList).length = 4 := rfl
          omega
        · obtain ⟨hv, hlen⟩ := consume_ok h1
          have h5 : ("false".toList).length = 5 := rfl
          omega
        · obtain ⟨hlt, _⟩ := parse_number_ok h1
          omega
        · obtain ⟨hle, _⟩ := parse_string_value_ok h1
          omega
        · have hlt := iha _ _ _ h1
          omega
        · have hlt := iho _ _ _ h1
          omega
    · intro cs v rest h
      simp only [parse_array] at h
      split at h
      · simp at h
      · rename_i c cs0
        split_ifs at h with hbr
        have hsk : (skip_whitespace cs0).length ≤ cs0.length := skip_whitespace_length cs0
        split at h
        · simp at h
        · rename_i d ds heq
          rw [heq] at hsk
          split_ifs at h with hd
          · obtain ⟨h1, h2⟩ := PRes.ok.inj h
            subst h2
            simp only [List.length_cons] at hsk ⊢
            omega
          · obtain ⟨items, rest1, h1, h2⟩ := PRes.bind_eq_ok h
            obtain ⟨h3, h4⟩ := PRes.ok.inj h2
            subst h4
            have hlt := ihai _ _ _ _ h1
            simp only [List.length_cons] at hsk hlt ⊢
            omega
    · intro cs v rest h
      simp only [parse_object] at h
      split at h
      · simp at h
      · rename_i c cs0
        split_ifs at h with hbr
        have hsk : (skip_whitespace cs0).length ≤ cs0.length := skip_whitespace_length cs0
        split at h
        · simp at h
        · rename_i d ds heq
          rw [heq] at hsk
          split_ifs at h with hd
          · obtain ⟨h1, h2⟩ := PRes.ok.inj h
            subst h2
            simp only [List.length_cons] at hsk ⊢
            omega
          · obtain ⟨props, rest1, h1, h2⟩ := PRes.bind_eq_ok h
            obtain ⟨h3, h4⟩ := PRes.ok.inj h2
            subst h4
            have hlt := ihoi _ _ _ _ h1
            simp only [List.length_cons] at hsk hlt ⊢
            omega
    · intro items cs xs rest h
      simp only [parse_array_items] at h
      obtain ⟨item, rest1, h1, h2⟩ := PRes.bind_eq_ok h
      have hlt := ihv _ _ _ h1
      split at h2
      · simp at h2
      · rename_i d ds
        split_ifs at h2 with hd hc
        · obtain ⟨h3, h4⟩ := PRes.ok.inj h2
          subst h4
          simp only [List.length_cons] at hlt ⊢
          omega
        · have hlt2 := ihai _ _ _ _ h2
          simp only [List.length_cons] at hlt hlt2 ⊢
          omega
    · intro props cs xs rest h
      simp only [parse_object_items] at h
      obtain ⟨key, rest1, h1, h2⟩ := PRes.bind_eq_ok h
      have hkey := parse_string_ok h1
      have hsk1 : (skip_whitespace rest1).length ≤ rest1.length := skip_whitespace_length rest1
      split at h2
      · simp at h2
      · rename_i c cs2 heq
        rw [heq] at hsk1
        split_ifs at h2 with hc
        obtain ⟨value, rest3, h3, h4⟩ := PRes.bind_eq_ok h2
        have hval := ihv _ _ _ h3
        split at h4
        · simp at h4
        · rename_i d ds
          split_ifs at h4 with hd hcomma
          · obtain ⟨h5, h6⟩ := PRes.ok.inj h4
            subst h6
            simp only [List.length_cons] at hsk1 hval ⊢
            omega
          · have hlt2 := ihoi _ _ _ _ h4
            have hsk2 : (skip_whitespace ds).length ≤ ds.length := skip_whitespace_length ds
            simp only [List.length_cons] at hsk1 hval hlt2 ⊢
            omega

theorem parse_value_consumed {fuel : Nat} {cs : List Char} {v : Json} {rest : List Char}
    (h : parse_value fuel cs = .ok v rest) : rest.length < cs.length :=
  (parse_consumed fuel).1 cs v rest h

theorem parse_nofuel (fuel : Nat) :
    (∀ cs, 3 * cs.length + 3 ≤ fuel → (parse_value fuel cs).isNofuel = false) ∧
    (∀ cs, 3 * cs.length + 2 ≤ fuel → (parse_array fuel cs).isNofuel = false) ∧
    (∀ cs, 3 * cs.length + 2 ≤ fuel → (parse_object fuel cs).isNofuel = false) ∧
    (∀ items cs, 3 * cs.length + 4 ≤ fuel →
      (parse_array_items fuel items cs).isNofuel = false) ∧
    (∀ props cs, 3 * cs.length + 4 ≤ fuel →
      (parse_object_items fuel props cs).isNofuel = false) := by
  induction fuel with
  | zero =>
    refine ⟨fun cs hb => ?_, fun cs hb => ?_, fun cs hb => ?_,
      fun items cs hb => ?_, fun props cs hb => ?_⟩ <;> omega
  | succ f ih =>
    obtain ⟨ihv, iha, iho, ihai, ihoi⟩ := ih
    refine ⟨?_, ?_, ?_, ?_, ?_⟩
    · intro cs hb
      simp only [parse_value]
      apply skip_trailing_isNofuel
      have hsk : (skip_whitespace cs).length ≤ cs.length := skip_whitespace_length cs
      split
      · rfl
      · split_ifs
        · exact consume_isNofuel _ _ _
        · exact consume_isNofuel _ _ _
        · exact consume_isNofuel _ _ _
        · exact parse_number_isNofuel _
        · exact parse_string_value_isNofuel _
        · exact iha _ (by omega)
        · exact iho _ (by omega)
        · rfl
    · intro cs hb
      simp only [parse_array]
      split
      · rfl
      · rename_i c cs0
        split_ifs
        · have hsk : (skip_whitespace cs0).length ≤ cs0.length := skip_whitespace_length cs0
          split
          · rfl
          · rename_i d ds heq
            split_ifs
            · rfl
            · apply PRes.bind_isNofuel
              · apply ihai
                rw [heq] at hsk
                simp only [List.length_cons] at hsk hb ⊢
                omega
              · intro a r _
                rfl
        · rfl
    · intro cs hb
      simp only [parse_object]
      split
      · rfl
      · rename_i c cs0
        split_ifs
        · have hsk : (skip_whitespace cs0).length ≤ cs0.length := skip_whitespace_length cs0
          split
          · rfl
          · rename_i d ds heq
            split_ifs
            · rfl
            · apply PRes.bind_isNofuel
              · apply ihoi
                rw [heq] at hsk
                simp only [List.length_cons] at hsk hb ⊢
                omega
              · intro a r _
                rfl
        · rfl
    · intro items cs hb
      simp only [parse_array_items]
      apply PRes.bind_isNofuel
      · apply ihv
        omega
      · intro item rest1 h1
        have hlt := parse_value_consumed h1
        split
        · rfl
        · rename_i d ds
          split_ifs
          · rfl
          · apply ihai
            simp only [List.length_cons] at hlt ⊢
            omega
          · rfl
    · intro props cs hb
      simp only [parse_object_items]
      apply PRes.bind_isNofuel (parse_string_isNofuel _)
      intro key rest1 h1
      have hkey := parse_string_ok h1
      have hsk1 : (skip_whitespace rest1).length ≤ rest1.length := skip_whitespace_length rest1
      split
      · rfl
      · rename_i c cs2 heq
        split_ifs
        · apply PRes.bind_isNofuel
          · apply ihv
            rw [heq] at hsk1
            simp only [List.length_cons] at hsk1 ⊢
            omega
          · intro value rest3 h3
            have hval := parse_value_consumed h3
            split
            · rfl
            · rename_i d ds
              split_ifs
              · rfl
              · apply ihoi
                have hsk2 : (skip_whitespace ds).length ≤ ds.length := skip_whitespace_length ds
                rw [heq] at hsk1
                simp only [List.length_cons] at hsk1 hval ⊢
                omega
              · rfl
        · rfl

theorem char_eq_of_toNat_eq {a b : Char} (h : a.toNat = b.toNat) : a = b :=
  Char.ext (UInt32.toNat.inj h)

theorem chars_lt_connex (a : List Char) : ∀ b : List Char,
    a = b ∨ chars_lt a b = true ∨ chars_lt b a = true := by
  induction a with
  | nil =>
    intro b
    cases b with
    | nil => exact Or.inl rfl
    | cons y ys => exact Or.inr (Or.inl rfl)
  | cons x xs ih =>
    intro b
    cases b with
    | nil => exact Or.inr (Or.inr rfl)
    | cons y ys =>
      by_cases hxy : x.toNat < y.toNat
      · exact Or.inr (Or.inl (by simp [chars_lt, hxy]))
      · by_cases hyx : y.toNat < x.toNat
        · exact Or.inr (Or.inr (by simp [chars_lt, hyx]))
        · have hx : x = y := char_eq_of_toNat_eq (by omega)
          subst hx
          rcases ih ys with h1 | h2 | h3
          · exact Or.inl (by rw [h1])
          · exact Or.inr (Or.inl (by simp [chars_lt, hxy, h2]))
          · exact Or.inr (Or.inr (by simp [chars_lt, hyx, h3]))

theorem str_lt_connex (a b : String) : a = b ∨ str_lt a b = true ∨ str_lt b a = true := by
  rcases chars_lt_connex a.toList b.toList with h | h | h
  · exact Or.inl (String.ext h)
  · exact Or.inr (Or.inl h)
  · exact Or.inr (Or.inr h)

theorem str_lt_of_not (a b : String) (h1 : ¬ str_lt a b = true) (h2 : ¬ a = b) :
    str_lt b a = true := by
  rcases str_lt_connex a b with h | h | h
  · exact absurd h h2
  · exact absurd h h1
  · exact h

theorem keys_sorted_cons2 (k1 k2 : String) (v1 v2 : Json) (rest : List (String × Json)) :
    keys_sorted ((k1, v1) :: (k2, v2) :: rest) =
      (str_lt k1 k2 && keys_sorted ((k2, v2) :: rest)) := rfl

theorem keys_sorted_tail {k : String} {v : Json} {rest : List (String × Json)}
    (h : keys_sorted ((k, v) :: rest) = true) : keys_sorted rest = true := by
  cases rest with
  | nil => rfl
  | cons q qs =>
    obtain ⟨k2, v2⟩ := q
    rw [keys_sorted_cons2, Bool.and_eq_true] at h
    exact h.2

theorem keys_sorted_cons (k : String) (v : Json) (rest : List (String × Json))
    (hrest : keys_sorted rest = true)
    (hhead : ∀ k2 v2 tail, rest = (k2, v2) :: tail → str_lt k k2 = true) :
    keys_sorted ((k, v) :: rest) = true := by
  cases rest with
  | nil => rfl
  | cons q qs =>
    obtain ⟨k2, v2⟩ := q
    rw [keys_sorted_cons2, Bool.and_eq_true]
    exact ⟨hhead k2 v2 qs rfl, hrest⟩

theorem btree_insert_head {props : List (String × Json)} {key : String} {value : Json}
    {k2 : String} {v2 : Json} {tail : List (String × Json)}
    (h : btree_insert props key value = (k2, v2) :: tail) :
    k2 = key ∨ ∃ v0 tail0, props = (k2, v0) :: tail0 := by
  cases props with
  | nil =>
    simp only [btree_insert] at h
    obtain ⟨h1, h2⟩ := List.cons.inj h
    injection h1 with hk hv
    exact Or.inl hk.symm
  | cons p ps =>
    obtain ⟨k1, v1⟩ := p
    simp only [btree_insert] at h
    split_ifs at h with h1 h2
    · obtain ⟨h3, h4⟩ := List.cons.inj h
      injection h3 with hk hv
      exact Or.inl hk.symm
    · obtain ⟨h3, h4⟩ := List.cons.inj h
      injection h3 with hk hv
      exact Or.inl hk.symm
    · obtain ⟨h3, h4⟩ := List.cons.inj h
      injection h3 with hk hv
      subst hk
      exact Or.inr ⟨v1, ps, rfl⟩

theorem keys_sorted_val_irrel (k : String) (v w : Json) (rest : List (String × Json)) :
    keys_sorted ((k, v) :: rest) = keys_sorted ((k, w) :: rest) := by
  cases rest with
  | nil => rfl
  | cons q qs =>
    obtain ⟨k2, v2⟩ := q
    rfl

theorem keys_sorted_insert (props : List (String × Json)) (key : String) (value : Json)
    (h : keys_sorted props = true) : keys_sorted (btree_insert props key value) = true := by
  induction props with
  | nil => rfl
  | cons p rest ih =>
    obtain ⟨k, v⟩ := p
    have hrest : keys_sorted rest = true := keys_sorted_tail h
    simp only [btree_insert]
    split_ifs with hlt heq
    · exact keys_sorted_cons key value ((k, v) :: rest) h
        (fun k2 v2 t hh => by
          obtain ⟨hh1, hh2⟩ := List.cons.inj hh
          injection hh1 with hk hv
          rw [← hk]
          exact hlt)
    · rw [heq, keys_sorted_val_irrel k value v]
      exact h
    · apply keys_sorted_cons k v _ (ih hrest)
      intro k2 v2 t hh
      rcases btree_insert_head hh with h1 | ⟨v0, t0, hr⟩
      · rw [h1]
        exact str_lt_of_not key k hlt heq
      · subst hr
        rw [keys_sorted_cons2, Bool.and_eq_true] at h
        exact h.1

theorem json_props_wf_insert (props : List (String × Json)) (key : String) (value : Json)
    (hw : json_props_wf props = true) (hv : json_wf value = true) :
    json_props_wf (btree_insert props key value) = true := by
  induction props with
  | nil => simp [btree_insert, json_props_wf, hv]
  | cons p rest ih =>
    obtain ⟨k, v⟩ := p
    simp only [json_props_wf, Bool.and_eq_true] at hw
    simp only [btree_insert]
    split_ifs with hlt heq
    · simp only [json_props_wf, Bool.and_eq_true]
      exact ⟨hv, hw.1, hw.2⟩
    · simp only [json_props_wf, Bool.and_eq_true]
      exact ⟨hv, hw.2⟩
    · simp only [json_props_wf, Bool.and_eq_true]
      exact ⟨hw.1, ih hw.2⟩

theorem json_list_wf_append (xs : List Json) (j : Json)
    (hxs : json_list_wf xs = true) (hj : json_wf j = true) :
    json_list_wf (xs ++ [j]) = true := by
  induction xs with
  | nil => simp [json_list_wf, hj]
  | cons x xs ih =>
    simp only [json_list_wf, List.cons_append, Bool.and_eq_true] at hxs ⊢
    exact ⟨hxs.1, ih hxs.2⟩

theorem btree_lookup_insert (props : List (String × Json)) (key : String) (value : Json) :
    btree_lookup (btree_insert props key value) key = some value := by
  induction props with
  | nil => simp [btree_insert, btree_lookup]
  | cons p rest ih =>
    obtain ⟨k, v⟩ := p
    simp only [btree_insert]
    split_ifs with hlt heq
    · simp [btree_lookup]
    · simp [btree_lookup]
    · simp only [btree_lookup]
      rw [if_neg heq]
      exact ih

theorem parse_wf (fuel : Nat) :
    (∀ cs v rest, parse_value fuel cs = .ok v rest → json_wf v = true) ∧
    (∀ cs v rest, parse_array fuel cs = .ok v rest → json_wf v = true) ∧
    (∀ cs v rest, parse_object fuel cs = .ok v rest → json_wf v = true) ∧
    (∀ items cs xs rest, parse_array_items fuel items cs = .ok xs rest →
      json_list_wf items = true → json_list_wf xs = true) ∧
    (∀ props cs xs rest, parse_object_items fuel props cs = .ok xs rest →
      keys_sorted props = true → json_props_wf props = true →
      keys_sorted xs = true ∧ json_props_wf xs = true) := by
  induction fuel with
  | zero =>
    refine ⟨fun cs v rest h => ?_, fun cs v rest h => ?_, fun cs v rest h => ?_,
      fun items cs xs rest h => ?_, fun props cs xs rest h => ?_⟩ <;>
      simp [parse_value, parse_array, parse_object, parse_array_items,
        parse_object_items] at h
  | succ f ih =>
    obtain ⟨ihv, iha, iho, ihai, ihoi⟩ := ih
    refine ⟨?_, ?_, ?_, ?_, ?_⟩
    · intro cs v rest h
      simp only [parse_value] at h
      obtain ⟨rest1, h1, h2⟩ := skip_trailing_ok h
      split at h1
      · simp at h1
      · split_ifs at h1 with hn ht hf hnum hq harr hobj
        · obtain ⟨hv, _⟩ := consume_ok h1
          subst hv
          rfl
        · obtain ⟨hv, _⟩ := consume_ok h1
          subst hv
          rfl
        · obtain ⟨hv, _⟩ := consume_ok h1
          subst hv
          rfl
        · obtain ⟨_, x, hv⟩ := parse_number_ok h1
          subst hv
          rfl
        · obtain ⟨_, s, hv⟩ := parse_string_value_ok h1
          subst hv
          rfl
        · exact iha _ _ _ h1
        · exact iho _ _ _ h1
    · intro cs v rest h
      simp only [parse_array] at h
      split at h
      · simp at h
      · split_ifs at h with hbr
        split at h
        · simp at h
        · split_ifs at h with hd
          · obtain ⟨h1, h2⟩ := PRes.ok.inj h
            rw [← h1]
            rfl
          · obtain ⟨items, rest1, h1, h2⟩ := PRes.bind_eq_ok h
            obtain ⟨h3, h4⟩ := PRes.ok.inj h2
            have hwf := ihai _ _ _ _ h1 rfl
            rw [← h3]
            simpa [json_wf] using hwf
    · intro cs v rest h
      simp only [parse_object] at h
      split at h
      · simp at h
      · split_ifs at h with hbr
        split at h
        · simp at h
        · split_ifs at h with hd
          · obtain ⟨h1, h2⟩ := PRes.ok.inj h
            rw [← h1]
            rfl
          · obtain ⟨props, rest1, h1, h2⟩ := PRes.bind_eq_ok h
            obtain ⟨h3, h4⟩ := PRes.ok.inj h2
            have hwf := ihoi _ _ _ _ h1 rfl rfl
            rw [← h3]
            simp only [json_wf, Bool.and_eq_true]
            exact hwf
    · intro items cs xs rest h hl
      simp only [parse_array_items] at h
      obtain ⟨item, rest1, h1, h2⟩ := PRes.bind_eq_ok h
      have hwi := ihv _ _ _ h1
      have hl2 : json_list_wf (items ++ [item]) = true := json_list_wf_append _ _ hl hwi
      split at h2
      · simp at h2
      · split_ifs at h2 with hd hc
        · obtain ⟨h3, h4⟩ := PRes.ok.inj h2
          rw [← h3]
          exact hl2
        · exact ihai _ _ _ _ h2 hl2
    · intro props cs xs rest h hs hw
      simp only [parse_object_items] at h
      obtain ⟨key, rest1, h1, h2⟩ := PRes.bind_eq_ok h
      split at h2
      · simp at h2
      · split_ifs at h2 with hc
        obtain ⟨value, rest3, h3, h4⟩ := PRes.bind_eq_ok h2
        have hwv := ihv _ _ _ h3
        have hs2 := keys_sorted_insert props key value hs
        have hw2 := json_props_wf_insert props key value hw hwv
        split at h4
        · simp at h4
        · split_ifs at h4 with hd hcomma
          · obtain ⟨h5, h6⟩ := PRes.ok.inj h4
            rw [← h5]
            exact ⟨hs2, hw2⟩
          · exact ihoi _ _ _ _ h4 hs2 hw2

theorem parse_ok_wf {s : String} {v : Json} {rest : List Char}
    (h : parse s = .ok v rest) : json_wf v = true := by
  simp only [parse, parse_chars] at h
  obtain ⟨v1, rest1, h1, h2⟩ := PRes.bind_eq_ok h
  have hwf := (parse_wf _).1 _ _ _ h1
  split at h2
  · simp at h2
  · obtain ⟨hv, hr⟩ := PRes.ok.inj h2
    rw [← hv]
    exact hwf

theorem parse_chars_isNofuel (cs : List Char) : (parse_chars cs).isNofuel = false := by
  simp only [parse_chars]
  apply PRes.bind_isNofuel ((parse_nofuel _).1 _ (by omega))
  intro a r _
  split <;> rfl

/-- Claim C2: the spec says every failure surfaces as a single typed
error value, naming the input consisting of just a minus sign.  The
code instead panics there: the error branch of parse_number formats its
message by calling unwrap on the peeked character, which is None when
the lone minus sign exhausted the input.  This theorem evaluates the
embedded parser at that failing input and exhibits the panic. -/
theorem claim_C2_panic_on_lone_minus :
    parse "-" = PRes.panicked "called Option::unwrap() on a None value" := rfl

/-- Claim C3: a backslash-u escape in the high-surrogate range followed
immediately by one in the low-surrogate range combines into the single
scalar value they encode (the quoted text uD83D uDE02 parses to the
string containing exactly U+1F602), while a lone high surrogate, a high
surrogate followed by a non-surrogate escape, and a high surrogate
followed by another high surrogate all make parse return an error. -/
theorem claim_C3_surrogate_pair_decoding :
    parse "\"\\uD83D\\uDE02\"" =
      PRes.ok (Json.string (String.mk [Char.ofNat 128514])) [] ∧
    (parse "\"\\uD83D\"").isErr = true ∧
    (parse "\"\\uD83D\\u0041\"").isErr = true ∧
    (parse "\"\\uD83D\\uD83D\"").isErr = true :=
  ⟨rfl, rfl, rfl, rfl⟩

/-- Claim C4: rendering prints object keys in natural sort order
regardless of the order they were written: parsing an object text with
key b before key a yields the key-sorted stored map, whose rendering
prints key a before key b; and in general every value produced by parse
has all of its object nodes stored in strictly ascending key order,
which is the order the printer traverses. -/
theorem claim_C4_object_keys_sorted :
    (parse "\x7b\"b\":1,\"a\":2\x7d" =
        PRes.ok (Json.object [("a", Json.number ⟨false, 2, 0⟩),
          ("b", Json.number ⟨false, 1, 0⟩)]) [] ∧
      json_to_string (Json.object [("a", Json.number ⟨false, 2, 0⟩),
          ("b", Json.number ⟨false, 1, 0⟩)]) 2 =
        "\x7b\n  \"a\": 2,\n  \"b\": 1\n\x7d") ∧
    (∀ s v rest, parse s = PRes.ok v rest → json_wf v = true) :=
  ⟨⟨rfl, rfl⟩, fun s v rest h => parse_ok_wf h⟩

theorem claim_C4_object_keys_sorted_witness :
    json_wf (Json.object [("a", Json.number ⟨false, 2, 0⟩),
      ("b", Json.number ⟨false, 1, 0⟩)]) = true :=
  claim_C4_object_keys_sorted.2 "\x7b\"b\":1,\"a\":2\x7d"
    (Json.object [("a", Json.number ⟨false, 2, 0⟩), ("b", Json.number ⟨false, 1, 0⟩)])
    [] (by rfl)

/-- Claim C5: the malformed numeric texts 00, 67., +23 and .34 are all
rejected: a multi-digit integer with a leading zero, a fractional point
with no following digit, a leading plus sign, and a number starting
with a point each make parse return an error. -/
theorem claim_C5_malformed_number_rejection :
    (parse "00").isErr = true ∧ (parse "67.").isErr = true ∧
    (parse "+23").isErr = true ∧ (parse ".34").isErr = true :=
  ⟨rfl, rfl, rfl, rfl⟩

/-- Claim C6: rendering the array of null, true, false at indent width
2 produces exactly an opening bracket, one element per line indented by
two spaces with commas between elements but not after the last, and a
closing bracket; and an empty array renders as a two-character bracket
pair on one line at every indent width and nesting level. -/
theorem claim_C6_pretty_array_rendering :
    json_to_string (Json.array [Json.null, Json.boolean true, Json.boolean false]) 2 =
      "[\n  null,\n  true,\n  false\n]" ∧
    (∀ indent level, display_json (Json.array []) indent level = "[]") :=
  ⟨rfl, fun indent level => rfl⟩

/-- Claim C7: when rendering a string, backslash, double quote, line
feed, carriage return, tab, form feed and backspace get two-character
short escapes and the forward slash is never escaped; every remaining
control character at or below code point 0x1F is emitted as a
backslash-u escape of exactly four uppercase hex digits starting 00;
and the rendering of the string containing the NUL character contains
the literal six-character substring backslash-u0000, at any indent. -/
theorem claim_C7_string_escapes :
    (escape_json_char '\\' = "\\\\" ∧ escape_json_char '"' = "\\\"" ∧
     escape_json_char '\n' = "\\n" ∧ escape_json_char '\r' = "\\r" ∧
     escape_json_char '\t' = "\\t" ∧ escape_json_char (Char.ofNat 12) = "\\f" ∧
     escape_json_char (Char.ofNat 8) = "\\b" ∧ escape_json_char '/' = "/") ∧
    (∀ c : Char, c.toNat ≤ 31 → c ≠ '\n' → c ≠ '\r' → c ≠ '\t' →
      c ≠ Char.ofNat 12 → c ≠ Char.ofNat 8 →
      escape_json_char c = "\\u" ++ hex4_upper c.toNat ∧
      hex4_upper c.toNat =
        String.mk ['0', '0', hex_digit_upper (c.toNat / 16),
          hex_digit_upper (c.toNat % 16)]) ∧
    (∀ indent, ∃ p q,
      json_to_string (Json.string "null \x00 char") indent = p ++ "\\u0000" ++ q) := by
  refine ⟨⟨rfl, rfl, rfl, rfl, rfl, rfl, rfl, rfl⟩, ?_, ?_⟩
  · intro c h0 hn hr ht hf hb
    have hbs : ¬ c = '\\' := by
      intro he
      rw [he] at h0
      exact absurd h0 (by decide)
    have hq : ¬ c = '"' := by
      intro he
      rw [he] at h0
      exact absurd h0 (by decide)
    constructor
    · simp only [escape_json_char]
      rw [if_neg hbs, if_neg hq, if_neg hn, if_neg hr, if_neg ht, if_neg hf, if_neg hb,
        if_pos h0]
    · simp only [hex4_upper]
      have h1 : c.toNat / 4096 % 16 = 0 := by omega
      have h2 : c.toNat / 256 % 16 = 0 := by omega
      have h3 : c.toNat / 16 % 16 = c.toNat / 16 := by omega
      rw [h1, h2, h3]
      rfl
  · intro indent
    exact ⟨"\"null ", " char\"", rfl⟩

theorem claim_C7_string_escapes_witness :
    escape_json_char (Char.ofNat 1) = "\\u" ++ hex4_upper ((Char.ofNat 1).toNat) ∧
    hex4_upper ((Char.ofNat 1).toNat) =
      String.mk ['0', '0', hex_digit_upper ((Char.ofNat 1).toNat / 16),
        hex_digit_upper ((Char.ofNat 1).toNat % 16)] :=
  claim_C7_string_escapes.2.1 (Char.ofNat 1) (by decide) (by decide) (by decide)
    (by decide) (by decide) (by decide)

/-- Claim C8: while parsing an object, inserting a key that is already
present overwrites the previously stored value and parsing succeeds
without error: the object text with key a bound to true and then to
false parses successfully to the map binding a to false, and in general
looking up a key right after inserting it in the map model returns the
newly inserted value. -/
theorem claim_C8_duplicate_keys_last_wins :
    parse "\x7b\"a\":true,\"a\":false\x7d" =
      PRes.ok (Json.object [("a", Json.boolean false)]) [] ∧
    (∀ props key value, btree_lookup (btree_insert props key value) key = some value) :=
  ⟨rfl, btree_lookup_insert⟩

/-- Claim C9: parse terminates on every input: the fuel budget the
entry point allocates from the input length is never exhausted (so the
embedded parser, whose fuel recursion mirrors the Rust call graph,
always reaches an ok, err or panic outcome), and every successful run
of the value rule consumes at least one character, which is the
decreasing measure making the mutually recursive value, array and
object rules and their delimiter loops terminate. -/
theorem claim_C9_parse_terminates :
    (∀ s : String, (parse s).isNofuel = false) ∧
    (∀ fuel cs v rest, parse_value fuel cs = PRes.ok v rest → rest.length < cs.length) :=
  ⟨fun s => parse_chars_isNofuel s.toList,
   fun fuel cs v rest h => parse_value_consumed h⟩

theorem claim_C9_parse_terminates_witness :
    ([] : List Char).length < ("1".toList).length :=
  claim_C9_parse_terminates.2 6 ("1".toList) (Json.number ⟨false, 1, 0⟩) [] (by rfl)
